import Mathlib

/-!
Verification development for the unity-cc-fastapi repository.

The definitions below are shallow embeddings of the repository's core:
the SSE stream transcoder (dist/services/stream.service.js), the
permission builder (dist/services/permission.service.js), the
concurrency limiter (src/services/concurrent.service.ts), the CLI
process launcher (src/services/claude.service.ts) and the chat request
handler (src/routes/chat.ts).  JavaScript strings are modelled as
`List Char`, JSON values as the inductive `Json`, and the asynchronous
parts as explicit traces / labelled transition systems whose atomic
steps are the synchronous segments between suspension points of the
single-threaded event loop.
-/

namespace CcFastapi

/-! ## JSON values (model of the values produced by JSON.parse) -/

/-- A JSON value as produced by `JSON.parse`.  Numbers are kept as their
literal character sequence: the transcoder never inspects a numeric value,
it only passes numbers through, so the literal is a faithful opaque
representation.  Object fields are kept in insertion order with unique
keys (later duplicate keys in the source text overwrite the value in
place, as JavaScript objects do). -/
inductive Json where
  | null : Json
  | bool (b : Bool) : Json
  | num (lit : List Char) : Json
  | str (s : List Char) : Json
  | arr (elems : List Json) : Json
  | obj (fields : List (List Char × Json)) : Json

/-- Left brace character (written via its code point). -/
def lbrace : Char := Char.ofNat 123

/-- Right brace character (written via its code point). -/
def rbrace : Char := Char.ofNat 125

/-- Double quote character. -/
def dquote : Char := Char.ofNat 34

/-- Backslash character. -/
def bslash : Char := Char.ofNat 92

/-- JSON insignificant whitespace (RFC 8259), by code point: space (32),
tab (9), line feed (10), carriage return (13). -/
def isJsonWs (c : Char) : Bool :=
  c.toNat == 32 || c.toNat == 9 || c.toNat == 10 || c.toNat == 13

/-- Drop leading JSON whitespace. -/
def skipWs (cs : List Char) : List Char :=
  cs.dropWhile isJsonWs

/-- Hexadecimal digit value (for \u escapes), by code point ranges:
48-57 are the decimal digits, 97-102 lowercase a-f, 65-70 uppercase A-F. -/
def hexVal (c : Char) : Option Nat :=
  let n := c.toNat
  if 48 ≤ n && n ≤ 57 then some (n - 48)
  else if 97 ≤ n && n ≤ 102 then some (n - 87)
  else if 65 ≤ n && n ≤ 70 then some (n - 55)
  else none

/-- Parse the body of a JSON string after the opening quote, returning the
decoded characters and the remaining input after the closing quote. -/
def parseStringBody : Nat → List Char → Option (List Char × List Char)
  | 0, _ => none
  | _, [] => none
  | fuel + 1, c :: rest =>
    if c == dquote then some ([], rest)
    else if c == bslash then
      match rest with
      | [] => none
      | e :: rest2 =>
        let decoded : Option (Char × List Char) :=
          if e == dquote then some (dquote, rest2)
          else if e == bslash then some (bslash, rest2)
          else if e == '/' then some ('/', rest2)
          else if e == 'b' then some (Char.ofNat 8, rest2)
          else if e == 'f' then some (Char.ofNat 12, rest2)
          else if e == 'n' then some ('\n', rest2)
          else if e == 'r' then some ('\r', rest2)
          else if e == 't' then some ('\t', rest2)
          else if e == 'u' then
            match rest2 with
            | h1 :: h2 :: h3 :: h4 :: rest3 =>
              match hexVal h1, hexVal h2, hexVal h3, hexVal h4 with
              | some a, some b, some c3, some d =>
                some (Char.ofNat (((a * 16 + b) * 16 + c3) * 16 + d), rest3)
              | _, _, _, _ => none
            | _ => none
          else none
        match decoded with
        | none => none
        | some (ch, rest3) =>
          match parseStringBody fuel rest3 with
          | some (s, rest4) => some (ch :: s, rest4)
          | none => none
    else if c.toNat < 32 then none
    else
      match parseStringBody fuel rest with
      | some (s, rest2) => some (c :: s, rest2)
      | none => none

/-- One decimal digit (code points 48-57)? -/
def isDecDigit (c : Char) : Bool := 48 ≤ c.toNat && c.toNat ≤ 57

/-- Parse a JSON number literal (grammar of RFC 8259), returning the
matched literal characters and the rest of the input. -/
def parseNumLit (cs : List Char) : Option (List Char × List Char) :=
  let (sign, afterSign) :=
    match cs with
    | '-' :: rest => ([ '-' ], rest)
    | _ => ([], cs)
  let intPart : Option (List Char × List Char) :=
    match afterSign with
    | '0' :: rest => some (['0'], rest)
    | c :: rest =>
      if isDecDigit c && c != '0' then
        some (c :: rest.takeWhile isDecDigit, rest.dropWhile isDecDigit)
      else none
    | [] => none
  match intPart with
  | none => none
  | some (ip, afterInt) =>
    let fracPart : Option (List Char × List Char) :=
      match afterInt with
      | '.' :: rest =>
        if rest.takeWhile isDecDigit == [] then none
        else some ('.' :: rest.takeWhile isDecDigit, rest.dropWhile isDecDigit)
      | _ => some ([], afterInt)
    match fracPart with
    | none => none
    | some (fp, afterFrac) =>
      let expPart : Option (List Char × List Char) :=
        match afterFrac with
        | e :: rest =>
          if e == 'e' || e == 'E' then
            let (es, rest2) :=
              match rest with
              | '+' :: r => (['+'], r)
              | '-' :: r => (['-'], r)
              | _ => (([] : List Char), rest)
            if rest2.takeWhile isDecDigit == [] then none
            else some (e :: es ++ rest2.takeWhile isDecDigit, rest2.dropWhile isDecDigit)
          else some ([], afterFrac)
        | [] => some ([], afterFrac)
      match expPart with
      | none => none
      | some (ep, afterExp) => some (sign ++ ip ++ fp ++ ep, afterExp)

/-- Insert a field into an object's field list: a duplicate key keeps its
original position and gets the new value (JavaScript object assignment). -/
def insertField (fields : List (List Char × Json)) (k : List Char) (v : Json) :
    List (List Char × Json) :=
  match fields with
  | [] => [(k, v)]
  | (k0, v0) :: rest =>
    if k0 == k then (k0, v) :: rest else (k0, v0) :: insertField rest k v

mutual

/-- Recursive-descent parser for one JSON value (model of `JSON.parse`),
fuelled; returns the value and the unconsumed input. -/
def parseValue : Nat → List Char → Option (Json × List Char)
  | 0, _ => none
  | fuel + 1, cs =>
    match skipWs cs with
    | [] => none
    | c :: rest =>
      if c == dquote then
        match parseStringBody (fuel + 1) rest with
        | some (s, rest2) => some (.str s, rest2)
        | none => none
      else if c == lbrace then parseObjFirst fuel rest
      else if c == '[' then parseArrFirst fuel rest
      else if c == 't' then
        match rest with
        | 'r' :: 'u' :: 'e' :: rest2 => some (.bool true, rest2)
        | _ => none
      else if c == 'f' then
        match rest with
        | 'a' :: 'l' :: 's' :: 'e' :: rest2 => some (.bool false, rest2)
        | _ => none
      else if c == 'n' then
        match rest with
        | 'u' :: 'l' :: 'l' :: rest2 => some (.null, rest2)
        | _ => none
      else
        match parseNumLit (c :: rest) with
        | some (lit, rest2) => some (.num lit, rest2)
        | none => none

/-- Array contents directly after the opening bracket. -/
def parseArrFirst : Nat → List Char → Option (Json × List Char)
  | 0, _ => none
  | fuel + 1, cs =>
    match skipWs cs with
    | ']' :: rest => some (.arr [], rest)
    | other =>
      match parseValue fuel other with
      | some (v, rest2) => parseArrRest fuel rest2 [v]
      | none => none

/-- Array contents after at least one element has been read. -/
def parseArrRest : Nat → List Char → List Json → Option (Json × List Char)
  | 0, _, _ => none
  | fuel + 1, cs, acc =>
    match skipWs cs with
    | ']' :: rest => some (.arr acc.reverse, rest)
    | ',' :: rest =>
      match parseValue fuel rest with
      | some (v, rest2) => parseArrRest fuel rest2 (v :: acc)
      | none => none
    | _ => none

/-- Object contents directly after the opening brace. -/
def parseObjFirst : Nat → List Char → Option (Json × List Char)
  | 0, _ => none
  | fuel + 1, cs =>
    match skipWs cs with
    | c :: rest =>
      if c == rbrace then some (.obj [], rest)
      else if c == dquote then
        match parseStringBody (fuel + 1) rest with
        | some (k, rest2) =>
          match skipWs rest2 with
          | ':' :: rest3 =>
            match parseValue fuel rest3 with
            | some (v, rest4) => parseObjRest fuel rest4 (insertField [] k v)
            | none => none
          | _ => none
        | none => none
      else none
    | [] => none

/-- Object contents after at least one field has been read. -/
def parseObjRest : Nat → List Char → List (List Char × Json) → Option (Json × List Char)
  | 0, _, _ => none
  | fuel + 1, cs, acc =>
    match skipWs cs with
    | c :: rest =>
      if c == rbrace then some (.obj acc, rest)
      else if c == ',' then
        match skipWs rest with
        | c2 :: rest2 =>
          if c2 == dquote then
            match parseStringBody (fuel + 1) rest2 with
            | some (k, rest3) =>
              match skipWs rest3 with
              | ':' :: rest4 =>
                match parseValue fuel rest4 with
                | some (v, rest5) => parseObjRest fuel rest5 (insertField acc k v)
                | none => none
              | _ => none
            | none => none
          else none
        | [] => none
      else none
    | [] => none

end

/-- Model of `JSON.parse` on a whole input: one value, optionally wrapped
in whitespace; anything trailing is a parse error.  The fuel bound is far
above the recursion depth reachable on an input of this length. -/
def jsonParse (cs : List Char) : Option Json :=
  match parseValue (4 * cs.length + 16) cs with
  | some (v, rest) => if skipWs rest == [] then some v else none
  | none => none

/-! ## JavaScript value helpers used by the transcoder -/

/-- Property lookup in an object's field list (keys are unique). -/
def lookupField : List (List Char × Json) → List Char → Option Json
  | [], _ => none
  | (k0, v) :: rest, k => if k0 == k then some v else lookupField rest k

/-- JavaScript property access `j.k`: `none` models `undefined`. -/
def Json.getField : Json → List Char → Option Json
  | .obj fields, k => lookupField fields k
  | _, _ => none

/-- Truthiness of a JSON number literal: falsy exactly when its value is 0,
i.e. when the mantissa (the part before any exponent) has no nonzero digit. -/
def numLitTruthy (lit : List Char) : Bool :=
  (lit.takeWhile (fun c => c != 'e' && c != 'E')).any (fun c => '1' ≤ c && c ≤ '9')

/-- JavaScript truthiness of a possibly-undefined value. -/
def jsTruthy : Option Json → Bool
  | none => false
  | some .null => false
  | some (.bool b) => b
  | some (.num lit) => numLitTruthy lit
  | some (.str s) => !s.isEmpty
  | some (.arr _) => true
  | some (.obj _) => true

/-- The strict comparison `j.type === t` for a string literal `t`. -/
def typeIs (j : Json) (t : List Char) : Bool :=
  match j.getField ("type".toList) with
  | some (.str s) => s == t
  | _ => false

/-- Characters removed by JavaScript `String.prototype.trim` (the common
ones: space, tab, LF, CR, VT, FF, NBSP, BOM). -/
def isJsTrimWs (c : Char) : Bool :=
  c.toNat == 32 || c.toNat == 9 || c.toNat == 10 || c.toNat == 13 || c.toNat == 11 ||
  c.toNat == 12 || c.toNat == 160 || c.toNat == 65279

/-- Model of `line.trim()`. -/
def jsTrim (s : List Char) : List Char :=
  ((s.dropWhile isJsTrimWs).reverse.dropWhile isJsTrimWs).reverse

/-- Model of JavaScript `chunk.split('\n')` (keeps empty segments,
including a trailing empty segment when the input ends in a newline,
and returns one empty segment for the empty string). -/
def splitOnNl : List Char → List (List Char)
  | [] => [[]]
  | c :: rest =>
    if c == '\n' then [] :: splitOnNl rest
    else
      match splitOnNl rest with
      | h :: t => (c :: h) :: t
      | [] => [[c]]

/-- How `splitOnNl` results compose over append: all but the last piece
of the left split, then the last left piece glued onto the first right
piece, then the rest of the right split.  (Both arguments are results of
`splitOnNl`, hence never empty.) -/
def glueSplits : List (List Char) → List (List Char) → List (List Char)
  | [], ys => ys
  | [x], ys =>
    match ys with
    | [] => [x]
    | y :: yt => (x ++ y) :: yt
  | x :: x2 :: xt, ys => x :: glueSplits (x2 :: xt) ys

/-! ## stream.service.js -/

/-- Result of `extractTextContent`: either an incremental text delta or a
structured value to forward. -/
inductive ExtractResult where
  | text (t : List Char) : ExtractResult
  | dataVal (j : Json) : ExtractResult

/-- Model of `const resultCopy = {...data}; delete resultCopy.result;`:
a copy of the object without its `result` property. -/
def removeFieldKey : List (List Char × Json) → List Char → List (List Char × Json)
  | [], _ => []
  | (k0, v) :: rest, k => if k0 == k then rest else (k0, v) :: removeFieldKey rest k

/-- Shallow copy of `data` with the `result` property deleted (used in the
`result` branch of `extractTextContent`). -/
def removeResultField : Json → Json
  | .obj fields => .obj (removeFieldKey fields ("result".toList))
  | j => j

/-- Model of `extractTextContent` (stream.service.js, lines 34-76):
classify a parsed output line.  `none` models the JavaScript `null`
("skip this line"). -/
def extractTextContent (data : Json) : Option ExtractResult :=
  if typeIs data ("stream_event".toList) && jsTruthy (data.getField ("event".toList)) then
    let event := (data.getField ("event".toList)).getD .null
    if typeIs event ("content_block_delta".toList) && jsTruthy (event.getField ("delta".toList)) then
      let delta := (event.getField ("delta".toList)).getD .null
      if typeIs delta ("text_delta".toList) then
        match delta.getField ("text".toList) with
        | some (.str t) => some (.text t)
        | _ => some (.dataVal data)
      else some (.dataVal data)
    else some (.dataVal data)
  else if typeIs data ("assistant".toList) && jsTruthy (data.getField ("message".toList)) then
    let message := (data.getField ("message".toList)).getD .null
    match message.getField ("content".toList) with
    | some (.arr contentItems) =>
      let hasToolUse := contentItems.any (fun item => typeIs item ("tool_use".toList))
      let hasText := contentItems.any (fun item =>
        typeIs item ("text".toList) && jsTruthy (item.getField ("text".toList)))
      if !hasToolUse && hasText then none else some (.dataVal data)
    | _ => some (.dataVal data)
  else if typeIs data ("result".toList) then
    some (.dataVal (removeResultField data))
  else some (.dataVal data)

/-- The payload of a `data` event: plain text or a structured value. -/
inductive Content where
  | ctext (s : List Char) : Content
  | cjson (j : Json) : Content

/-- Model of `parseLine` (stream.service.js, lines 83-105): trim the line,
discard it if empty, try `JSON.parse`, classify through
`extractTextContent`, and fall back to plain text on parse failure. -/
def parseLine (line : List Char) : Option Content :=
  let trimmedLine := jsTrim line
  if trimmedLine == [] then none
  else
    match jsonParse trimmedLine with
    | some data =>
      match extractTextContent data with
      | none => none
      | some (.text v) => some (.ctext v)
      | some (.dataVal v) => some (.cjson v)
    | none => some (.ctext trimmedLine)

/-- A concrete CLI output line: an `assistant` message whose only content
block is a plain-text block whose text is the empty string. -/
def assistantEmptyTextLine : List Char :=
  "\x7b\"type\":\"assistant\",\"message\":\x7b\"content\":[\x7b\"type\":\"text\",\"text\":\"\"\x7d]\x7d\x7d".toList

/-- The content blocks of `assistantEmptyTextLine` as parsed values. -/
def assistantEmptyTextItems : List Json :=
  [Json.obj [("type".toList, Json.str ("text".toList)), ("text".toList, Json.str [])]]

/-- The parsed value of `assistantEmptyTextLine`. -/
def assistantEmptyTextJson : Json :=
  Json.obj [("type".toList, Json.str ("assistant".toList)),
            ("message".toList, Json.obj [("content".toList, Json.arr assistantEmptyTextItems)])]

/-- A concrete CLI output line: an `assistant` message whose only content
block is a plain-text block with text `"hi"`. -/
def assistantHiTextLine : List Char :=
  "\x7b\"type\":\"assistant\",\"message\":\x7b\"content\":[\x7b\"type\":\"text\",\"text\":\"hi\"\x7d]\x7d\x7d".toList

/-- The content blocks of `assistantHiTextLine` as parsed values. -/
def assistantHiTextItems : List Json :=
  [Json.obj [("type".toList, Json.str ("text".toList)), ("text".toList, Json.str ['h', 'i'])]]

/-- The parsed value of `assistantHiTextLine`. -/
def assistantHiTextJson : Json :=
  Json.obj [("type".toList, Json.str ("assistant".toList)),
            ("message".toList, Json.obj [("content".toList, Json.arr assistantHiTextItems)])]

/-- An outbound SSE event.  The source's `end` event is named `endEv`
because `end` is a Lean keyword. -/
inductive SSEEvent where
  | start (sessionId : List Char) : SSEEvent
  | data (content : Content) : SSEEvent
  | error (message : List Char) : SSEEvent
  | endEv (sessionId : List Char) : SSEEvent

/-- The `data` events produced for one stdout chunk: the chunk is split on
newlines and every segment — including an unterminated trailing segment —
is fed to `parseLine` immediately (stream.service.js, lines 129-151). -/
def chunkEvents (chunk : List Char) : List SSEEvent :=
  (splitOnNl chunk).filterMap (fun line => (parseLine line).map SSEEvent.data)

/-- The `data` events produced for a sequence of stdout chunks, in order. -/
def dataEvents (chunks : List (List Char)) : List SSEEvent :=
  (chunks.map chunkEvents).flatten

/-- The child process handle as the transcoder sees it: its stdout and
stderr contents, each as the sequence of UTF-8 text chunks delivered by
the corresponding stream. -/
structure ChildProcess where
  stdout : List (List Char)
  stderr : List (List Char)

/-- How one run of the generator terminates: the stdout stream ends
normally; the async iteration raises a read error after some number of
chunks were consumed (the `catch` arm); or the consumer stops early after
taking some number of events (the generator is closed, running
`finally`). -/
inductive StreamOutcome where
  | normal : StreamOutcome
  | readError (chunksRead : Nat) (message : List Char) : StreamOutcome
  | earlyStop (eventsTaken : Nat) : StreamOutcome

/-- Model of the async generator `streamClaudeOutput` (stream.service.js,
lines 119-169): the full sequence of events it emits for one request.
A `start` event is yielded first; each stdout chunk contributes its
`chunkEvents`; a read error yields one `error` event (the `catch` arm);
and the `finally` arm always yields the final `end` event — on normal
termination, after a read error, and when the consumer stops early.
Only `child.stdout` is ever consumed. -/
def streamClaudeOutput (child : ChildProcess) (sessionId : List Char)
    (outcome : StreamOutcome) : List SSEEvent :=
  match outcome with
  | .normal =>
    SSEEvent.start sessionId :: dataEvents child.stdout ++ [SSEEvent.endEv sessionId]
  | .readError k msg =>
    SSEEvent.start sessionId :: dataEvents (child.stdout.take k) ++
      [SSEEvent.error msg, SSEEvent.endEv sessionId]
  | .earlyStop k =>
    SSEEvent.start sessionId :: (dataEvents child.stdout).take k ++ [SSEEvent.endEv sessionId]

/-! ## permission.service.js -/

/-- JavaScript truthiness of a possibly-undefined string. -/
def jsStrTruthy : Option String → Bool
  | none => false
  | some s => !(s == "")

/-- Model of `buildAllowedToolsArg` (permission.service.js, lines 20-42). -/
def buildAllowedToolsArg (mode : Option String) (workspace : Option String) : String :=
  if mode == some "pure" then "\"\""
  else if mode == some "simple" then "WebSearch,WebFetch"
  else if mode == some "readonly" then "Read,LS,Glob,Grep"
  else if mode == some "projectwrite" then
    if jsStrTruthy workspace then
      "\"Edit(" ++ workspace.getD "" ++ "/**)\",\"Read\""
    else "Read,Write,Edit,LS,Glob,Grep"
  else ""

/-- The permission configuration object; `none` fields model properties
that were never assigned (JavaScript `undefined`). -/
structure PermissionConfig where
  allowedTools : Option String := none
  noIndexing : Option Bool := none
  addDirs : Option (List String) := none
deriving DecidableEq

/-- Model of `buildPermissionConfig` (permission.service.js, lines 51-70). -/
def buildPermissionConfig (mode : Option String) (workspace : Option String)
    (externaldirs : Option String) : PermissionConfig :=
  let config1 : PermissionConfig :=
    if jsStrTruthy mode then
      { allowedTools := some (buildAllowedToolsArg mode workspace),
        noIndexing :=
          if mode == some "pure" || mode == some "simple" then some true else none,
        addDirs := none }
    else {}
  if jsStrTruthy externaldirs then
    { config1 with
      addDirs := some ((((externaldirs.getD "").splitOn ",").map
        (fun dir => dir.trim)).filter (fun dir => dir.length > 0)) }
  else config1

/-! ## concurrent.service.ts : ConcurrencyLimiter

The limiter runs on Node's single-threaded event loop.  We model it as a
labelled transition system whose steps are the synchronous code segments
between suspension points.  A `run()` call with a free slot increments
`active` and synchronously invokes the job body (`executeDirect` calls
`execute()` before its first `await`), so those form one step.  A
promotion inside `processNext` increments `active` and clears the task's
timer synchronously, but the job body itself only starts in the microtask
scheduled by `Promise.resolve().then(...)`: promotion and body start are
therefore two separate steps, with the promoted task held in `promoted`
in between.  Task identities (the `resolve` closure identities used by
`findIndex` in the timeout callback) are modelled as fresh `Nat` ids.
The per-call timeout value `timeout ?? defaultTimeout` is resolved at the
`run()` call and carried in the task.  A task's timer is cleared when it
is promoted (`clearTimeout` in `processNext`) and when the queue is
cleared, so the timeout callback can only run while the task is still
queued; this is why `timeoutFire` is guarded by queue membership. -/

/-- A queued task: the fields of `QueuedTask` that the claims observe
(the stored timeout and enqueue timestamp), plus the identity of the
`run()` call. -/
structure QueuedTask where
  id : Nat
  timeoutMs : Nat
  timestamp : Nat
deriving DecidableEq

/-- The limiter's state.  `active`, `maxConcurrent` and `queue` are the
fields of the class; the remaining fields are history/ghost state needed
to express the claims: `promoted` holds ids whose slot was taken by
`processNext` but whose body has not yet started (the pending microtask),
`running` the bodies currently executing, and the counters/outcome lists
record what happened to each `run()` call. -/
structure LimiterState where
  active : Int
  maxConcurrent : Int
  queue : List QueuedTask
  promoted : List Nat
  running : List Nat
  finishedIds : List Nat
  timedOut : List (Nat × Nat)
  cleared : List Nat
  startedCount : Nat
  finishedCount : Nat
deriving DecidableEq

/-- Every id the limiter has ever been given (used to keep `run()` ids fresh). -/
def usedIds (s : LimiterState) : List Nat :=
  s.queue.map QueuedTask.id ++ s.promoted ++ s.running ++ s.finishedIds ++
    s.timedOut.map Prod.fst ++ s.cleared

/-- The `while` loop of `processNext` (concurrent.service.ts, lines
101-122): promote tasks from the front of the queue while a slot is free,
incrementing `active` for each.  Returns the remaining queue, the new
`active`, and the promoted tasks in promotion order. -/
def processNextLoop : List QueuedTask → Int → Int → List QueuedTask × Int × List QueuedTask
  | [], active, _ => ([], active, [])
  | t :: rest, active, m =>
    if active < m then
      let (q, a, p) := processNextLoop rest (active + 1) m
      (q, a, t :: p)
    else (t :: rest, active, [])

/-- Model of `processNext`: run the promotion loop and park the promoted
tasks' ids in `promoted` until their microtasks start the bodies. -/
def processNext (s : LimiterState) : LimiterState :=
  let (q, a, p) := processNextLoop s.queue s.active s.maxConcurrent
  { s with queue := q, active := a, promoted := s.promoted ++ p.map QueuedTask.id }

/-- `this.queue.findIndex(t => t.resolve === resolve)`: the task of a
given run() call, if still queued. -/
def findTask (queue : List QueuedTask) (id : Nat) : Option QueuedTask :=
  queue.find? (fun t => t.id == id)

/-- `this.queue.splice(index, 1)` at the index found for this id. -/
def removeTask : List QueuedTask → Nat → List QueuedTask
  | [], _ => []
  | t :: rest, id => if t.id == id then rest else t :: removeTask rest id

/-- The events (synchronous segments) of the limiter's event loop. -/
inductive LimiterStep where
  | runDirect (id : Nat) : LimiterStep
  | runEnqueue (id : Nat) (timeoutMs : Nat) (now : Nat) : LimiterStep
  | promotedStart (id : Nat) : LimiterStep
  | finish (id : Nat) : LimiterStep
  | timeoutFire (id : Nat) : LimiterStep
  | setMax (n : Int) : LimiterStep
  | clearQueue : LimiterStep
deriving DecidableEq

/-- One transition of the limiter; `none` when the step's guard fails.

* `runDirect`: `run()` finds `active < maxConcurrent` and calls
  `executeDirect`, which increments `active` and synchronously enters the
  job body.
* `runEnqueue`: `run()` finds no free slot and `enqueue` pushes a task
  (with its timeout value and `Date.now()` timestamp) onto the queue tail.
* `promotedStart`: the microtask scheduled by `processNext` for a
  promoted task runs `task.execute()` — the body starts.
* `finish`: a job body settles, running the `finally` arm: `active--`
  followed by `processNext()`.
* `timeoutFire`: a queued task's timer expires: the task is spliced out
  of the queue and its promise rejected with the timeout error carrying
  its stored timeout value.
* `setMax`: `setMaxConcurrent(n)` assigns the new capacity and calls
  `processNext()`.
* `clearQueue`: `clear()` rejects every queued task with the shutdown
  error and empties the queue. -/
def applyStep (s : LimiterState) : LimiterStep → Option LimiterState
  | .runDirect id =>
    if s.active < s.maxConcurrent && !((usedIds s).contains id) then
      some { s with active := s.active + 1, running := id :: s.running,
                    startedCount := s.startedCount + 1 }
    else none
  | .runEnqueue id timeoutMs now =>
    if !(s.active < s.maxConcurrent) && !((usedIds s).contains id) then
      some { s with queue := s.queue ++ [⟨id, timeoutMs, now⟩] }
    else none
  | .promotedStart id =>
    if s.promoted.contains id then
      some { s with promoted := s.promoted.erase id, running := id :: s.running,
                    startedCount := s.startedCount + 1 }
    else none
  | .finish id =>
    if s.running.contains id then
      some (processNext { s with active := s.active - 1, running := s.running.erase id,
                                 finishedIds := id :: s.finishedIds,
                                 finishedCount := s.finishedCount + 1 })
    else none
  | .timeoutFire id =>
    match findTask s.queue id with
    | some t =>
      some { s with queue := removeTask s.queue id,
                    timedOut := (id, t.timeoutMs) :: s.timedOut }
    | none => none
  | .setMax n => some (processNext { s with maxConcurrent := n })
  | .clearQueue =>
    some { s with queue := [], cleared := s.cleared ++ s.queue.map QueuedTask.id }

/-- The state of a freshly constructed `ConcurrencyLimiter(maxConcurrent, _)`. -/
def initLimiter (maxConcurrent : Int) : LimiterState :=
  { active := 0, maxConcurrent := maxConcurrent, queue := [], promoted := [],
    running := [], finishedIds := [], timedOut := [], cleared := [],
    startedCount := 0, finishedCount := 0 }

/-- Multi-step reachability between limiter states. -/
inductive Reaches : LimiterState → LimiterState → Prop where
  | refl (s : LimiterState) : Reaches s s
  | step (s₁ s₂ s₃ : LimiterState) (st : LimiterStep) :
      Reaches s₁ s₂ → applyStep s₂ st = some s₃ → Reaches s₁ s₃

/-- A state of a limiter constructed with capacity `m`. -/
def Reachable (m : Int) (s : LimiterState) : Prop :=
  Reaches (initLimiter m) s

/-- Reachability in executions where `setMaxConcurrent` is never used to
lower the capacity below the currently active count. -/
inductive ReachesG : LimiterState → LimiterState → Prop where
  | refl (s : LimiterState) : ReachesG s s
  | step (s₁ s₂ s₃ : LimiterState) (st : LimiterStep) :
      ReachesG s₁ s₂ → applyStep s₂ st = some s₃ →
      (∀ n, st = .setMax n → s₂.active ≤ n) → ReachesG s₁ s₃

/-- `Reachable` restricted to executions that never shrink the capacity
below the active count. -/
def ReachableG (m : Int) (s : LimiterState) : Prop :=
  ReachesG (initLimiter m) s

/-- Model of `getStatus()`. -/
structure ConcurrencyStatus where
  active : Int
  max : Int
  available : Int
  queued : Nat
deriving DecidableEq

/-- `getStatus()` (concurrent.service.ts, lines 128-135). -/
def getStatus (s : LimiterState) : ConcurrencyStatus :=
  { active := s.active, max := s.maxConcurrent,
    available := max 0 (s.maxConcurrent - s.active), queued := s.queue.length }

/-- `getQueueInfo()` (concurrent.service.ts, lines 140-146): one
`{timestamp, waitingMs}` entry per queued task. -/
def getQueueInfo (s : LimiterState) (now : Nat) : List (Nat × Int) :=
  s.queue.map (fun t => (t.timestamp, (now : Int) - t.timestamp))

/-- Accounting invariant of the limiter: the `active` counter equals the
number of running job bodies plus the number of promoted-but-not-yet-
started tasks, and the started/finished counters tally the running
bodies. -/
def ActiveCountInv (s : LimiterState) : Prop :=
  s.active = (s.running.length : Int) + (s.promoted.length : Int)
  ∧ s.startedCount = s.finishedCount + s.running.length

/-- Identity invariant: no `run()` call identity occurs twice across the
limiter's bookkeeping. -/
def IdsInv (s : LimiterState) : Prop :=
  ∀ id, (usedIds s).count id ≤ 1

/-- A task rejected by its queue timeout stays rejected: it is recorded
in `timedOut` and is in none of the places from which a job body can
start or have started. -/
def TimedOutStays (id : Nat) (s : LimiterState) : Prop :=
  id ∈ s.timedOut.map Prod.fst
  ∧ id ∉ s.queue.map QueuedTask.id
  ∧ id ∉ s.promoted
  ∧ id ∉ s.running
  ∧ id ∉ s.finishedIds

/-! ## claude.service.ts : process launcher -/

/-- The environment one `spawnClaudeProcess` call runs in: whether the
stdin write throws (and with what message), and whether the OS later
emits an `error` event on the child (spawn failure: command not found,
permission denied). -/
structure SpawnEnv where
  errorEvent : Option (List Char)
  stdinFailure : Option (List Char)
deriving DecidableEq

/-- Observable actions of the launcher. -/
inductive SpawnAction where
  | spawnOS : SpawnAction
  | log (msg : List Char) : SpawnAction
  | killChild : SpawnAction
  | stdinWrite : SpawnAction
  | stdinEnd : SpawnAction
deriving DecidableEq

/-- The message prefix of the error thrown on a stdin write failure
(claude.service.ts, line 184). -/
def stdinErrMsg (m : List Char) : List Char :=
  ("无法写入 Claude CLI stdin: ".toList) ++ m

/-- The `child.on('error', ...)` listener registered by
`spawnClaudeProcess` (claude.service.ts, lines 162-164): it only logs the
error to the console; nothing is thrown, rejected or reported to the
request that spawned the process. -/
def onChildError (err : List Char) : List SpawnAction :=
  [SpawnAction.log (("Claude CLI 子进程错误:".toList) ++ err)]

/-- Model of `spawnClaudeProcess` (claude.service.ts, lines 141-188):
spawn the child, write the prompt to stdin and close it; if the write
throws, kill the child and rethrow; otherwise return the child handle.
A pending asynchronous `error` event does not change the returned value —
it is handled later by `onChildError`. -/
def spawnClaudeProcess (env : SpawnEnv) : List SpawnAction × Except (List Char) SpawnEnv :=
  match env.stdinFailure with
  | some m => ([SpawnAction.spawnOS, SpawnAction.killChild], .error (stdinErrMsg m))
  | none => ([SpawnAction.spawnOS, SpawnAction.stdinWrite, SpawnAction.stdinEnd], .ok env)

/-! ## chat.ts : handleStreamChat -/

/-- The request body of `POST /chat/stream` after Fastify's own JSON
schema (which only requires `prompt` to be present and string-typed). -/
structure ChatRequestBody where
  prompt : String
  sessionId : Option String := none
  workspace : Option String := none
  externaldirs : Option String := none
  allowedmode : Option String := none
  vision : Option String := none

/-- The zod schema `chatRequestSchema.safeParse` success predicate on
such a body: `prompt: z.string().min(1)`; all other fields optional. -/
def chatRequestSchemaSafeParse (body : ChatRequestBody) : Bool :=
  body.prompt.length ≥ 1

/-- `request.body.sessionId && request.body.sessionId.trim() !== '' ?
request.body.sessionId : null` (chat.ts, lines 56-58). -/
def sessionOf (body : ChatRequestBody) : Option String :=
  match body.sessionId with
  | some s => if s == "" then none else if s.trim == "" then none else some s
  | none => none

/-- Observable actions of the request handler, in program order. -/
inductive HandlerAction where
  | acquireSlot : HandlerAction
  | respond (status : Nat) : HandlerAction
  | spawn : HandlerAction
  | setSSEHeaders : HandlerAction
  | writeEvent (e : SSEEvent) : HandlerAction
  | endResponse : HandlerAction
  | kill (signal : String) : HandlerAction
  | writeErrorFrame (msg : List Char) : HandlerAction
  | releaseSlot : HandlerAction

/-- Model of `killClaudeProcess` (claude.service.ts, lines 195-200): a
single graceful `child.kill('SIGTERM')`, guarded by `!child.killed`.
No forcible (`SIGKILL`) follow-up exists in the source. -/
def killClaudeProcess (alreadyKilled : Bool) : List HandlerAction :=
  if !alreadyKilled then [HandlerAction.kill "SIGTERM"] else []

/-- How the streaming loop of `handleStreamChat` exits:
* `normal` — the `for await` consumed every event and the response was
  still writable, so `reply.raw.end()` runs;
* `disconnect k` — `reply.raw.writableEnded` turned true after `k`
  events were written, so the loop breaks and the `end()` call is
  skipped;
* `streamThrow k msg` — the iteration threw after `k` events were
  written, so control passes through the `finally` into the outer
  `catch`. -/
inductive StreamPhasePath where
  | normal : StreamPhasePath
  | disconnect (k : Nat) : StreamPhasePath
  | streamThrow (k : Nat) (msg : List Char) : StreamPhasePath

/-- Model of `handleStreamChat` (chat.ts, lines 49-136) as the ordered
trace of its observable actions.  The whole body runs inside
`globalLimiter.run` (slot acquired before, released after).  Validation
with `chatRequestSchema` happens first inside the job; on failure the
handler responds 400 and returns without spawning.  On success it spawns
the child, sets the SSE headers, writes the transcoded events
(`streamClaudeOutput child sid outcome`), and on the normal path calls
`reply.raw.end()` *inside the `try`*, after which the `finally` runs
`killClaudeProcess`.  The outer `catch` responds 500 when no bytes were
sent yet, and otherwise writes an in-band error frame and ends the
response. -/
def handleStreamChat (body : ChatRequestBody) (child : ChildProcess)
    (outcome : StreamOutcome) (path : StreamPhasePath) : List HandlerAction :=
  HandlerAction.acquireSlot ::
  (if !(chatRequestSchemaSafeParse body) then
    [HandlerAction.respond 400]
  else
    let sid := (match sessionOf body with | some s => s | none => "new").toList
    let events := streamClaudeOutput child sid outcome
    HandlerAction.spawn :: HandlerAction.setSSEHeaders ::
    (match path with
     | .normal =>
       events.map HandlerAction.writeEvent ++ [HandlerAction.endResponse] ++
         killClaudeProcess false
     | .disconnect k =>
       (events.take k).map HandlerAction.writeEvent ++ killClaudeProcess false
     | .streamThrow k msg =>
       (events.take k).map HandlerAction.writeEvent ++ killClaudeProcess false ++
         (if k == 0 then [HandlerAction.respond 500]
          else [HandlerAction.writeErrorFrame msg, HandlerAction.endResponse]))) ++
  [HandlerAction.releaseSlot]

/-- Is this action a `child.kill(...)`? -/
def isKill : HandlerAction → Bool
  | .kill _ => true
  | _ => false

/-- Is this action a forcible `child.kill('SIGKILL')`? -/
def isForcibleKill : HandlerAction → Bool
  | .kill s => s == "SIGKILL"
  | _ => false

/-- Is this action `reply.raw.end()`? -/
def isEndResponse : HandlerAction → Bool
  | .endResponse => true
  | _ => false

/-- Is this action the acquisition of a concurrency-limiter slot? -/
def isAcquireSlot : HandlerAction → Bool
  | .acquireSlot => true
  | _ => false

/-- Is this action a `spawnClaudeProcess` call? -/
def isSpawn : HandlerAction → Bool
  | .spawn => true
  | _ => false

/-- Is this action a `reply.code(status).send(...)`? -/
def isRespond (status : Nat) : HandlerAction → Bool
  | .respond s => s == status
  | _ => false

/-! ## Theorems -/

/-- Every event contributed by chunk processing is a `data` event. -/
theorem exists_data_of_mem_dataEvents {chunks : List (List Char)} {e : SSEEvent}
    (h : e ∈ dataEvents chunks) : ∃ c, e = SSEEvent.data c := by
  simp only [dataEvents, List.mem_flatten, List.mem_map] at h
  obtain ⟨l, ⟨c, hc, rfl⟩, hel⟩ := h
  simp only [chunkEvents, List.mem_filterMap] at hel
  obtain ⟨line, hline, hpl⟩ := hel
  cases hparse : parseLine line with
  | none => rw [hparse] at hpl; cases hpl
  | some v =>
    rw [hparse] at hpl
    exact ⟨v, by simpa using hpl.symm⟩

/-- `splitOnNl` never returns the empty list. -/
theorem splitOnNl_ne_nil (s : List Char) : splitOnNl s ≠ [] := by
  induction s with
  | nil => simp [splitOnNl]
  | cons c rest ih =>
    simp only [splitOnNl]
    split
    · simp
    · cases h : splitOnNl rest with
      | nil => simp
      | cons a t => simp

/-- Splitting an appended string on newlines glues the adjacent splits. -/
theorem splitOnNl_append (a b : List Char) :
    splitOnNl (a ++ b) = glueSplits (splitOnNl a) (splitOnNl b) := by
  induction a with
  | nil =>
    cases hb : splitOnNl b with
    | nil => exact absurd hb (splitOnNl_ne_nil b)
    | cons y yt => simp [splitOnNl, glueSplits, hb]
  | cons c rest ih =>
    by_cases hc : (c == '\n') = true
    · have hceq : c = '\n' := eq_of_beq hc
      subst hceq
      cases hrest : splitOnNl rest with
      | nil => exact absurd hrest (splitOnNl_ne_nil rest)
      | cons r rt =>
        rw [List.cons_append]
        simp only [splitOnNl, beq_self_eq_true, if_true, reduceIte]
        rw [ih, hrest]
        simp [glueSplits]
    · have hc2 : (c == '\n') = false := by simpa using hc
      cases hrest : splitOnNl rest with
      | nil => exact absurd hrest (splitOnNl_ne_nil rest)
      | cons r rt =>
        cases rt with
        | nil =>
          cases hb : splitOnNl b with
          | nil => exact absurd hb (splitOnNl_ne_nil b)
          | cons y yt =>
            rw [List.cons_append]
            simp only [splitOnNl, hc2, Bool.false_eq_true, if_false]
            rw [ih, hrest, hb]
            simp [glueSplits]
        | cons r2 rt2 =>
          rw [List.cons_append]
          simp only [splitOnNl, hc2, Bool.false_eq_true, if_false]
          rw [ih, hrest]
          simp [glueSplits]

/-- Gluing onto a split whose first piece is empty is plain append. -/
theorem glueSplits_nil_cons (sa : List (List Char)) (h : sa ≠ []) (sb : List (List Char)) :
    glueSplits sa ([] :: sb) = sa ++ sb := by
  induction sa with
  | nil => exact absurd rfl h
  | cons x xs ih =>
    cases xs with
    | nil => simp [glueSplits]
    | cons x2 xt => simp [glueSplits, ih (by simp)]

/-- An empty line produces no output. -/
theorem parseLine_nil : parseLine [] = none := rfl

/-- Chunk processing distributes over append at a newline boundary. -/
theorem chunkEvents_append (a b : List Char) (ha : ∃ a0, a = a0 ++ ['\n']) :
    chunkEvents (a ++ b) = chunkEvents a ++ chunkEvents b := by
  obtain ⟨a0, rfl⟩ := ha
  have h1 : splitOnNl (a0 ++ '\n' :: b) = splitOnNl a0 ++ splitOnNl b := by
    rw [show ('\n' :: b : List Char) = ['\n'] ++ b from rfl, splitOnNl_append a0 (['\n'] ++ b)]
    rw [show splitOnNl (['\n'] ++ b) = [] :: splitOnNl b from by simp [splitOnNl]]
    exact glueSplits_nil_cons _ (splitOnNl_ne_nil a0) _
  have h2 : splitOnNl (a0 ++ ['\n']) = splitOnNl a0 ++ [[]] := by
    rw [splitOnNl_append]
    rw [show splitOnNl ['\n'] = [[], []] from rfl]
    exact glueSplits_nil_cons _ (splitOnNl_ne_nil a0) [[]]
  simp [chunkEvents, h1, h2, List.filterMap_append, parseLine_nil]

/-- When every chunk boundary falls at a line boundary, per-chunk
processing coincides with processing the concatenation. -/
theorem dataEvents_flatten (chunks : List (List Char))
    (h : ∀ c ∈ chunks, c = [] ∨ ∃ c0, c = c0 ++ ['\n']) :
    dataEvents chunks = chunkEvents chunks.flatten := by
  induction chunks with
  | nil => rfl
  | cons c cs ih =>
    have hc := h c (by simp)
    have hcs := ih (fun x hx => h x (by simp [hx]))
    simp only [dataEvents, List.map_cons, List.flatten_cons] at hcs ⊢
    rcases hc with rfl | hnl
    · simpa [chunkEvents, splitOnNl, parseLine_nil] using hcs
    · rw [hcs, chunkEvents_append c cs.flatten hnl]

/-- C1 counterexample: splitting the single stdout chunk
`"hello world\n"` into the two chunks `"hello "` and `"world\n"` changes
the emitted event sequence (the transcoder processes the unterminated
trailing segment of each chunk immediately instead of buffering it), so
chunk boundary position does change the output. -/
theorem streamClaudeOutput_chunk_boundary_counterexample :
    streamClaudeOutput ⟨["hello ".toList, "world\n".toList], []⟩ ("s".toList) .normal
      ≠ streamClaudeOutput ⟨[(["hello ".toList, "world\n".toList]).flatten], []⟩
          ("s".toList) .normal := by
  intro h
  have h4 : (streamClaudeOutput ⟨["hello ".toList, "world\n".toList], []⟩
      ("s".toList) .normal).length = 4 := rfl
  have h3 : (streamClaudeOutput ⟨[(["hello ".toList, "world\n".toList]).flatten], []⟩
      ("s".toList) .normal).length = 3 := rfl
  rw [h, h3] at h4
  exact absurd h4 (by decide)

/-- C1 amended: the emitted event sequence is invariant under the
placement of chunk boundaries provided every boundary falls at a line
boundary (each chunk is empty or ends in a newline); the transcoder does
not buffer partial lines, so a boundary inside a line changes the
output. -/
theorem streamClaudeOutput_chunk_invariant_aligned (chunks : List (List Char))
    (stderr : List (List Char)) (sid : List Char)
    (h : ∀ c ∈ chunks, c = [] ∨ ∃ c0, c = c0 ++ ['\n']) :
    streamClaudeOutput ⟨chunks, stderr⟩ sid .normal
      = streamClaudeOutput ⟨[chunks.flatten], stderr⟩ sid .normal := by
  simp only [streamClaudeOutput]
  rw [dataEvents_flatten chunks h]
  simp [dataEvents]

/-- C1 witness: the amended theorem at the two newline-terminated chunks
`"a\n"` and `"b\n"`. -/
theorem streamClaudeOutput_chunk_invariant_aligned_witness :
    (∀ c ∈ [("a\n".toList : List Char), "b\n".toList], c = [] ∨ ∃ c0, c = c0 ++ ['\n'])
    ∧ streamClaudeOutput ⟨["a\n".toList, "b\n".toList], []⟩ ("s".toList) .normal
        = streamClaudeOutput ⟨[(["a\n".toList, "b\n".toList]).flatten], []⟩
            ("s".toList) .normal := by
  have hyp : ∀ c ∈ [("a\n".toList : List Char), "b\n".toList], c = [] ∨ ∃ c0, c = c0 ++ ['\n'] := by
    intro c hc
    simp only [List.mem_cons, List.mem_singleton, List.not_mem_nil, or_false] at hc
    rcases hc with rfl | rfl
    · exact Or.inr ⟨['a'], rfl⟩
    · exact Or.inr ⟨['b'], rfl⟩
  exact ⟨hyp, streamClaudeOutput_chunk_invariant_aligned _ _ _ hyp⟩

/-- C5: `buildPermissionConfig('projectwrite', 'D:/Proj', undefined)` has
`allowedTools` equal to the exact string `"Edit(D:/Proj/**)","Read"`, and
`buildPermissionConfig('pure', undefined, undefined)` has `allowedTools`
equal to the exact string `""` and `noIndexing` equal to `true`. -/
theorem buildPermissionConfig_modes :
    (buildPermissionConfig (some "projectwrite") (some "D:/Proj") none).allowedTools
        = some "\"Edit(D:/Proj/**)\",\"Read\""
    ∧ (buildPermissionConfig (some "pure") none none).allowedTools = some "\"\""
    ∧ (buildPermissionConfig (some "pure") none none).noIndexing = some true :=
  ⟨rfl, rfl, rfl⟩

/-- C10: `streamClaudeOutput` consumes only the child's stdout: the
emitted events do not depend on anything written to stderr, and a process
that writes only to stderr (empty stdout) yields exactly the two events
`start` then `end`. -/
theorem streamClaudeOutput_stdout_only :
    (∀ (stdout stderrA stderrB : List (List Char)) (sid : List Char) (outcome : StreamOutcome),
        streamClaudeOutput ⟨stdout, stderrA⟩ sid outcome
          = streamClaudeOutput ⟨stdout, stderrB⟩ sid outcome)
    ∧ (∀ (stderr : List (List Char)) (sid : List Char),
        streamClaudeOutput ⟨[], stderr⟩ sid .normal
          = [SSEEvent.start sid, SSEEvent.endEv sid]) := by
  constructor
  · intro stdout sA sB sid outcome
    cases outcome <;> rfl
  · intro stderr sid
    rfl

/-- C4: within one request's stream the transcoder emits a single `start`
first, then only `data` events, then — only if a read error occurred — a
single `error` event immediately followed by the terminal `end`, which is
always the final event, on normal termination, read error, and early
consumer stop alike. -/
theorem streamClaudeOutput_ordering (child : ChildProcess) (sid : List Char)
    (outcome : StreamOutcome) :
    ∃ ds er,
      streamClaudeOutput child sid outcome
          = SSEEvent.start sid :: (ds ++ er ++ [SSEEvent.endEv sid])
      ∧ (∀ e ∈ ds, ∃ c, e = SSEEvent.data c)
      ∧ (er = [] ∨ ∃ m, er = [SSEEvent.error m] ∧ ∃ k, outcome = StreamOutcome.readError k m) := by
  cases outcome with
  | normal =>
    exact ⟨dataEvents child.stdout, [], by simp [streamClaudeOutput],
      fun e he => exists_data_of_mem_dataEvents he, Or.inl rfl⟩
  | readError k m =>
    exact ⟨dataEvents (child.stdout.take k), [SSEEvent.error m],
      by simp [streamClaudeOutput],
      fun e he => exists_data_of_mem_dataEvents he, Or.inr ⟨m, rfl, k, rfl⟩⟩
  | earlyStop k =>
    exact ⟨(dataEvents child.stdout).take k, [], by simp [streamClaudeOutput],
      fun e he => exists_data_of_mem_dataEvents (List.take_subset k _ he), Or.inl rfl⟩

/-- A value whose `type` property strictly equals one string does not
strictly equal a different string. -/
theorem typeIs_ne {j : Json} {a b : List Char} (h : typeIs j a = true) (hne : a ≠ b) :
    typeIs j b = false := by
  unfold typeIs at h ⊢
  revert h
  cases j.getField ("type".toList) with
  | none => simp
  | some v =>
    cases v with
    | str s =>
      intro h
      have hs : s = a := by simpa using h
      subst hs
      simpa using hne
    | null => simp
    | bool x => simp
    | num x => simp
    | arr x => simp
    | obj x => simp

/-- C6 counterexample: an `assistant` line whose content blocks are all
plain-text blocks and contain no tool-invocation block, yet the
transcoder still emits a `data` event for it — because every text block's
`text` is empty, the code's `hasText` probe is false and the suppression
branch is skipped. -/
theorem parseLine_assistant_counterexample :
    jsonParse (jsTrim assistantEmptyTextLine) = some assistantEmptyTextJson
    ∧ typeIs assistantEmptyTextJson ("assistant".toList) = true
    ∧ ((assistantEmptyTextJson.getField ("message".toList)).getD .null).getField
        ("content".toList) = some (.arr assistantEmptyTextItems)
    ∧ assistantEmptyTextItems.all (fun item => typeIs item ("text".toList)) = true
    ∧ assistantEmptyTextItems.any (fun item => typeIs item ("tool_use".toList)) = false
    ∧ parseLine assistantEmptyTextLine = some (Content.cjson assistantEmptyTextJson)
    ∧ (chunkEvents (assistantEmptyTextLine ++ ['\n'])).length = 1 :=
  ⟨rfl, rfl, rfl, rfl, rfl, rfl, rfl⟩

/-- C6 amended: an `assistant` line is suppressed (no `data` event)
exactly under the code's probes: its content array has no `tool_use`
block and at least one `text` block with truthy (non-empty) text. -/
theorem parseLine_assistant_suppressed (line : List Char) (data : Json) (items : List Json)
    (hp : jsonParse (jsTrim line) = some data)
    (htype : typeIs data ("assistant".toList) = true)
    (hmsg : jsTruthy (data.getField ("message".toList)) = true)
    (hcontent : ((data.getField ("message".toList)).getD .null).getField ("content".toList)
        = some (.arr items))
    (hnoTool : items.any (fun item => typeIs item ("tool_use".toList)) = false)
    (hhasText : items.any (fun item =>
        typeIs item ("text".toList) && jsTruthy (item.getField ("text".toList))) = true) :
    parseLine line = none := by
  have hne : typeIs data ("stream_event".toList) = false :=
    typeIs_ne htype (by decide)
  have htype2 : typeIs data ['a', 's', 's', 'i', 's', 't', 'a', 'n', 't'] = true := htype
  have hmsg2 : jsTruthy (data.getField ['m', 'e', 's', 's', 'a', 'g', 'e']) = true := hmsg
  have hcontent2 : ((data.getField ['m', 'e', 's', 's', 'a', 'g', 'e']).getD Json.null).getField
      ['c', 'o', 'n', 't', 'e', 'n', 't'] = some (Json.arr items) := hcontent
  have hnoTool2 : (items.any fun item => typeIs item ['t', 'o', 'o', 'l', '_', 'u', 's', 'e'])
      = false := hnoTool
  have hhasText2 : (items.any fun item =>
      typeIs item ['t', 'e', 'x', 't'] && jsTruthy (item.getField ['t', 'e', 'x', 't'])) = true :=
    hhasText
  have hne2 : typeIs data ['s', 't', 'r', 'e', 'a', 'm', '_', 'e', 'v', 'e', 'n', 't'] = false :=
    hne
  have hext : extractTextContent data = none := by
    unfold extractTextContent
    rw [if_neg (by simp [hne2]), if_pos (by simp [htype2, hmsg2])]
    simp only [hcontent]
    rw [if_pos (by simp [hnoTool2, hhasText2])]
  by_cases ht : (jsTrim line == []) = true
  · simp [parseLine, ht]
  · have ht2 : (jsTrim line == []) = false := by simpa using ht
    simp [parseLine, ht2, hp, hext]

/-- C6 witness: the amended theorem at the concrete line whose only
content block is a text block with text `"hi"`. -/
theorem parseLine_assistant_suppressed_witness :
    jsonParse (jsTrim assistantHiTextLine) = some assistantHiTextJson
    ∧ typeIs assistantHiTextJson ("assistant".toList) = true
    ∧ jsTruthy (assistantHiTextJson.getField ("message".toList)) = true
    ∧ ((assistantHiTextJson.getField ("message".toList)).getD .null).getField
        ("content".toList) = some (.arr assistantHiTextItems)
    ∧ assistantHiTextItems.any (fun item => typeIs item ("tool_use".toList)) = false
    ∧ assistantHiTextItems.any (fun item =>
        typeIs item ("text".toList) && jsTruthy (item.getField ("text".toList))) = true
    ∧ parseLine assistantHiTextLine = none :=
  ⟨rfl, rfl, rfl, rfl, rfl, rfl,
    parseLine_assistant_suppressed assistantHiTextLine assistantHiTextJson assistantHiTextItems
      rfl rfl rfl rfl rfl rfl⟩

/-- C9 counterexample: for the empty-prompt request the handler does
respond 400 and never spawns, but it first occupies a concurrency-limiter
slot (validation runs inside `globalLimiter.run`), refuting the claim
that no resource is allocated for an invalid request. -/
theorem handleStreamChat_validation_counterexample :
    chatRequestSchemaSafeParse ⟨"", none, none, none, none, none⟩ = false
    ∧ handleStreamChat ⟨"", none, none, none, none, none⟩ ⟨[], []⟩ .normal .normal
        = [HandlerAction.acquireSlot, HandlerAction.respond 400, HandlerAction.releaseSlot]
    ∧ ((handleStreamChat ⟨"", none, none, none, none, none⟩ ⟨[], []⟩ .normal .normal).filter
        isAcquireSlot).length = 1 :=
  ⟨rfl, rfl, rfl⟩

/-- C9 amended: a request whose body fails the zod validation is answered
with HTTP 400 and produces no spawn and no kill — but it does acquire
(and release) a concurrency-limiter slot around the validation, because
validation runs inside the limiter job. -/
theorem handleStreamChat_validation (body : ChatRequestBody) (child : ChildProcess)
    (outcome : StreamOutcome) (path : StreamPhasePath)
    (h : chatRequestSchemaSafeParse body = false) :
    handleStreamChat body child outcome path
      = [HandlerAction.acquireSlot, HandlerAction.respond 400, HandlerAction.releaseSlot] := by
  simp [handleStreamChat, h]

/-- C9 witness: the amended theorem applied to the concrete empty-prompt
request. -/
theorem handleStreamChat_validation_witness :
    chatRequestSchemaSafeParse ⟨"", none, none, none, none, none⟩ = false
    ∧ handleStreamChat ⟨"", none, none, none, none, none⟩ ⟨[], []⟩ .normal .normal
        = [HandlerAction.acquireSlot, HandlerAction.respond 400, HandlerAction.releaseSlot] :=
  ⟨rfl, handleStreamChat_validation _ _ _ _ rfl⟩

/-- C7 counterexample: on the normal completion path the handler ends the
response *before* the `finally` block kills the child, and no forcible
(`SIGKILL`) kill exists anywhere in the trace — refuting "terminates
(gracefully then forcibly) before the response stream ends". -/
theorem handleStreamChat_cleanup_counterexample :
    ((handleStreamChat ⟨"hi", none, none, none, none, none⟩ ⟨[], []⟩ .normal .normal).filter
        isForcibleKill = [])
    ∧ ((handleStreamChat ⟨"hi", none, none, none, none, none⟩ ⟨[], []⟩ .normal .normal).findIdx
          isEndResponse
        < (handleStreamChat ⟨"hi", none, none, none, none, none⟩ ⟨[], []⟩ .normal .normal).findIdx
          isKill) :=
  ⟨rfl, by decide⟩

/-- C7 amended: for every request that spawns a child, a
finally-guaranteed cleanup runs on every exit path — normal completion,
client disconnect, and a throwing stream — and it performs exactly one
kill, the graceful `SIGTERM` (no forcible follow-up); on the normal path
the kill happens after `reply.raw.end()`, not before. -/
theorem handleStreamChat_cleanup (body : ChatRequestBody) (child : ChildProcess)
    (outcome : StreamOutcome) (path : StreamPhasePath)
    (h : chatRequestSchemaSafeParse body = true) :
    ((handleStreamChat body child outcome path).filter isKill = [HandlerAction.kill "SIGTERM"])
    ∧ (∃ w, handleStreamChat body child outcome .normal
          = HandlerAction.acquireSlot :: HandlerAction.spawn :: HandlerAction.setSSEHeaders ::
            (w ++ [HandlerAction.endResponse, HandlerAction.kill "SIGTERM",
                   HandlerAction.releaseSlot])) := by
  constructor
  · cases path with
    | normal =>
      simp [handleStreamChat, h, killClaudeProcess, List.filter_append, List.filter_map, isKill]
    | disconnect k =>
      simp only [handleStreamChat, h, killClaudeProcess, Bool.not_true, Bool.not_false,
        if_false, if_true, List.filter_append, List.filter_cons]
      simp [isKill, List.filter_eq_nil_iff]
      intro a ha
      obtain ⟨e, -, rfl⟩ := List.mem_map.mp (List.take_subset _ _ ha)
      rfl
    | streamThrow k msg =>
      by_cases hk : (k == 0) = true <;>
        (simp [handleStreamChat, h, killClaudeProcess, List.filter_append, List.filter_map,
          isKill, hk]
         intro a ha
         obtain ⟨e, -, rfl⟩ := List.mem_map.mp (List.take_subset _ _ ha)
         rfl)
  · refine ⟨(streamClaudeOutput child
      ((match sessionOf body with | some s => s | none => "new").toList) outcome).map
        HandlerAction.writeEvent, ?_⟩
    simp [handleStreamChat, h, killClaudeProcess]

/-- C7 witness: the amended theorem at a concrete valid request, on the
client-disconnect path. -/
theorem handleStreamChat_cleanup_witness :
    chatRequestSchemaSafeParse ⟨"hi", none, none, none, none, none⟩ = true
    ∧ (((handleStreamChat ⟨"hi", none, none, none, none, none⟩ ⟨[], []⟩ .normal
          (.disconnect 1)).filter isKill = [HandlerAction.kill "SIGTERM"])
       ∧ (∃ w, handleStreamChat ⟨"hi", none, none, none, none, none⟩ ⟨[], []⟩ .normal .normal
            = HandlerAction.acquireSlot :: HandlerAction.spawn :: HandlerAction.setSSEHeaders ::
              (w ++ [HandlerAction.endResponse, HandlerAction.kill "SIGTERM",
                     HandlerAction.releaseSlot]))) :=
  ⟨rfl, handleStreamChat_cleanup _ _ _ _ rfl⟩

/-- C8 counterexample: a spawn failure (asynchronous `error` event, e.g.
ENOENT) does not surface as an error for the request — `spawnClaudeProcess`
still returns the child handle, and the registered error listener only
writes a console log. -/
theorem spawnClaudeProcess_spawn_failure_counterexample :
    (spawnClaudeProcess ⟨some ("ENOENT".toList), none⟩).2 = .ok ⟨some ("ENOENT".toList), none⟩
    ∧ onChildError ("ENOENT".toList)
        = [SpawnAction.log (("Claude CLI 子进程错误:".toList) ++ ("ENOENT".toList))] :=
  ⟨rfl, rfl⟩

/-- C8 amended: a stdin-write failure kills the child and surfaces as an
immediate error carrying the failure message; a spawn failure, by
contrast, is only logged by the `error`-event listener — the call still
returns the handle and no error reaches the request. -/
theorem spawnClaudeProcess_failure_surfacing (env : SpawnEnv) :
    (∀ m, env.stdinFailure = some m →
        (spawnClaudeProcess env).2 = .error (stdinErrMsg m)
        ∧ SpawnAction.killChild ∈ (spawnClaudeProcess env).1)
    ∧ (env.stdinFailure = none → (spawnClaudeProcess env).2 = .ok env)
    ∧ (∀ e, onChildError e = [SpawnAction.log (("Claude CLI 子进程错误:".toList) ++ e)]) := by
  refine ⟨?_, ?_, fun e => rfl⟩
  · intro m hm
    simp [spawnClaudeProcess, hm]
  · intro hm
    simp [spawnClaudeProcess, hm]

/-- C8 witness: the amended theorem at a concrete failing stdin write. -/
theorem spawnClaudeProcess_failure_surfacing_witness :
    (spawnClaudeProcess ⟨none, some ("boom".toList)⟩).2 = .error (stdinErrMsg ("boom".toList))
    ∧ SpawnAction.killChild ∈ (spawnClaudeProcess ⟨none, some ("boom".toList)⟩).1 :=
  (spawnClaudeProcess_failure_surfacing ⟨none, some ("boom".toList)⟩).1 ("boom".toList) rfl

/-- The promotion loop increments `active` once per promoted task and
takes the promoted tasks from the front of the queue. -/
theorem processNextLoop_spec (queue : List QueuedTask) (active m : Int) :
    (processNextLoop queue active m).2.1
        = active + ((processNextLoop queue active m).2.2.length : Int)
    ∧ queue = (processNextLoop queue active m).2.2 ++ (processNextLoop queue active m).1 := by
  induction queue generalizing active with
  | nil => simp [processNextLoop]
  | cons t rest ih =>
    by_cases hlt : active < m
    · obtain ⟨h1, h2⟩ := ih (active + 1)
      cases hpr : processNextLoop rest (active + 1) m with
      | mk q ap =>
        cases ap with
        | mk a p =>
          rw [hpr] at h1 h2
          simp only [processNextLoop, if_pos hlt, hpr] at h1 h2 ⊢
          constructor
          · simp only [List.length_cons]
            push_cast
            omega
          · rw [h2, List.cons_append]
    · simp [processNextLoop, if_neg hlt]

/-- The promotion loop never raises `active` above the capacity unless it
was already above it. -/
theorem processNextLoop_le (queue : List QueuedTask) (active m : Int) :
    (processNextLoop queue active m).2.1 ≤ max active m := by
  induction queue generalizing active with
  | nil => simp [processNextLoop]
  | cons t rest ih =>
    by_cases hlt : active < m
    · cases hpr : processNextLoop rest (active + 1) m with
      | mk q ap =>
        cases ap with
        | mk a p =>
          have h := ih (active + 1)
          rw [hpr] at h
          simp only [processNextLoop, if_pos hlt, hpr]
          simp only at h
          have hmax : max (active + 1) m = m := max_eq_right (by omega)
          rw [hmax] at h
          exact le_trans h (le_max_right _ _)
    · simp [processNextLoop, if_neg hlt]

/-- `processNext` in destructured form. -/
theorem processNext_parts (s : LimiterState) :
    ∃ q a p, processNextLoop s.queue s.active s.maxConcurrent = (q, a, p)
      ∧ processNext s
          = { s with queue := q, active := a,
                     promoted := s.promoted ++ p.map QueuedTask.id } := by
  cases hpr : processNextLoop s.queue s.active s.maxConcurrent with
  | mk q ap =>
    cases ap with
    | mk a p => exact ⟨q, a, p, rfl, by simp [processNext, hpr]⟩

/-- A successful `findTask` returns a queued task with the requested id. -/
theorem findTask_some {q : List QueuedTask} {id : Nat} {t : QueuedTask}
    (h : findTask q id = some t) : t.id = id ∧ t ∈ q := by
  have h1 := List.find?_some h
  have h2 := List.mem_of_find?_eq_some h
  exact ⟨by simpa using h1, h2⟩

/-- With unique queue ids, `findTask` at a queued task's id finds that
very task. -/
theorem findTask_eq_of_mem {q : List QueuedTask} {t : QueuedTask} (ht : t ∈ q)
    (hc : (q.map QueuedTask.id).count t.id ≤ 1) : findTask q t.id = some t := by
  induction q with
  | nil => cases ht
  | cons t0 rest ih =>
    by_cases h0 : (t0.id == t.id) = true
    · simp only [findTask, List.find?, h0]
      rcases List.mem_cons.mp ht with rfl | hrest
      · rfl
      · exfalso
        have hm : t.id ∈ rest.map QueuedTask.id := List.mem_map_of_mem _ hrest
        have hpos : 0 < (rest.map QueuedTask.id).count t.id := List.count_pos_iff.mpr hm
        have : (t0.id :: rest.map QueuedTask.id).count t.id
            = (rest.map QueuedTask.id).count t.id + 1 := by
          simp [List.count_cons, h0]
        simp only [List.map_cons] at hc
        omega
    · simp only [findTask, List.find?, h0]
      have ht' : t ∈ rest := by
        rcases List.mem_cons.mp ht with rfl | hrest
        · simp at h0
        · exact hrest
      have hc' : (rest.map QueuedTask.id).count t.id ≤ 1 := by
        simp only [List.map_cons, List.count_cons] at hc
        omega
      exact ih ht' hc'

/-- `removeTask` removes a sublist position. -/
theorem removeTask_sublist (q : List QueuedTask) (id : Nat) :
    (removeTask q id).Sublist q := by
  induction q with
  | nil => simp [removeTask]
  | cons t rest ih =>
    simp only [removeTask]
    split
    · exact List.sublist_cons_self t rest
    · exact ih.cons₂ t

/-- With unique queue ids, the spliced-out id is gone from the queue. -/
theorem not_mem_removeTask {q : List QueuedTask} {id : Nat}
    (hc : (q.map QueuedTask.id).count id ≤ 1) :
    id ∉ (removeTask q id).map QueuedTask.id := by
  induction q with
  | nil => simp [removeTask]
  | cons t0 rest ih =>
    by_cases h0 : (t0.id == id) = true
    · simp only [removeTask, if_pos h0]
      have h0' : t0.id = id := by simpa using h0
      simp only [List.map_cons, List.count_cons, h0'] at hc
      intro hmem
      have hpos : 0 < (rest.map QueuedTask.id).count id := List.count_pos_iff.mpr hmem
      simp at hc
      omega
    · simp only [removeTask, if_neg h0, List.map_cons, List.mem_cons]
      push_neg
      refine ⟨fun h => ?_, ?_⟩
      · simp [h] at h0
      · apply ih
        simp only [List.map_cons, List.count_cons, h0] at hc
        simpa using hc

/-- Removing one occurrence decrements that id's count by one. -/
theorem removeTask_count_self {q : List QueuedTask} {id : Nat}
    (h : id ∈ q.map QueuedTask.id) :
    ((removeTask q id).map QueuedTask.id).count id + 1 = (q.map QueuedTask.id).count id := by
  induction q with
  | nil => simp at h
  | cons t0 rest ih =>
    by_cases h0 : (t0.id == id) = true
    · have h0' : t0.id = id := by simpa using h0
      simp [removeTask, if_pos h0, List.count_cons, h0']
    · have h0' : ¬ (t0.id = id) := by simpa using h0
      have h' : id ∈ rest.map QueuedTask.id := by
        simp only [List.map_cons, List.mem_cons] at h
        rcases h with heq | hmem
        · exact absurd heq.symm h0'
        · exact hmem
      simp only [removeTask, if_neg h0, List.map_cons, List.count_cons]
      have := ih h'
      simp [h0', Ne.symm h0']
      omega

/-- Removing an id leaves every other id's count unchanged. -/
theorem removeTask_count_ne (q : List QueuedTask) (id x : Nat) (hx : x ≠ id) :
    ((removeTask q id).map QueuedTask.id).count x = (q.map QueuedTask.id).count x := by
  induction q with
  | nil => simp [removeTask]
  | cons t0 rest ih =>
    by_cases h0 : (t0.id == id) = true
    · have h0' : t0.id = id := by simpa using h0
      simp [removeTask, if_pos h0, List.count_cons, h0', hx]
    · simp only [removeTask, if_neg h0, List.map_cons, List.count_cons]
      omega

/-- Every limiter step preserves the accounting invariant. -/
theorem activeCountInv_step {s s' : LimiterState} {st : LimiterStep}
    (h : ActiveCountInv s) (happ : applyStep s st = some s') : ActiveCountInv s' := by
  obtain ⟨h1, h2⟩ := h
  cases st with
  | runDirect id =>
    simp only [applyStep] at happ
    split at happ
    · injection happ with happ'
      subst happ'
      refine ⟨?_, ?_⟩ <;> simp <;> omega
    · simp at happ
  | runEnqueue id timeoutMs now =>
    simp only [applyStep] at happ
    split at happ
    · injection happ with happ'
      subst happ'
      exact ⟨by simpa using h1, by simpa using h2⟩
    · simp at happ
  | promotedStart id =>
    simp only [applyStep] at happ
    split at happ
    · rename_i hguard
      have hmem : id ∈ s.promoted := by simpa using hguard
      have hlen : (s.promoted.erase id).length = s.promoted.length - 1 :=
        List.length_erase_of_mem hmem
      have hpos : 0 < s.promoted.length := List.length_pos.mpr (by
        intro hnil
        rw [hnil] at hmem
        simp at hmem)
      injection happ with happ'
      subst happ'
      refine ⟨?_, ?_⟩ <;> simp [hlen] <;> omega
    · simp at happ
  | finish id =>
    simp only [applyStep] at happ
    split at happ
    · rename_i hguard
      have hmem : id ∈ s.running := by simpa using hguard
      have hlen : (s.running.erase id).length = s.running.length - 1 :=
        List.length_erase_of_mem hmem
      have hpos : 0 < s.running.length := List.length_pos.mpr (by
        intro hnil
        rw [hnil] at hmem
        simp at hmem)
      obtain ⟨q, a, p, hpr, hpn⟩ := processNext_parts
        { s with active := s.active - 1, running := s.running.erase id,
                 finishedIds := id :: s.finishedIds, finishedCount := s.finishedCount + 1 }
      rw [hpn] at happ
      injection happ with happ'
      subst happ'
      simp only at hpr
      have hsp := processNextLoop_spec s.queue (s.active - 1) s.maxConcurrent
      rw [hpr] at hsp
      obtain ⟨ha, hq⟩ := hsp
      simp only at ha
      refine ⟨?_, ?_⟩ <;> simp [hlen] <;> omega
    · simp at happ
  | timeoutFire id =>
    cases hft : findTask s.queue id with
    | none => simp [applyStep, hft] at happ
    | some t =>
      simp only [applyStep, hft] at happ
      injection happ with happ'
      subst happ'
      exact ⟨by simpa using h1, by simpa using h2⟩
  | setMax n =>
    simp only [applyStep] at happ
    obtain ⟨q, a, p, hpr, hpn⟩ := processNext_parts { s with maxConcurrent := n }
    rw [hpn] at happ
    injection happ with happ'
    subst happ'
    simp only at hpr
    have hsp := processNextLoop_spec s.queue s.active n
    rw [hpr] at hsp
    obtain ⟨ha, hq⟩ := hsp
    simp only at ha
    refine ⟨?_, ?_⟩ <;> simp <;> omega
  | clearQueue =>
    simp only [applyStep] at happ
    injection happ with happ'
    subst happ'
    exact ⟨by simpa using h1, by simpa using h2⟩

/-- Every limiter step that does not shrink the capacity below the
active count preserves `active ≤ maxConcurrent`. -/
theorem active_le_max_step {s s' : LimiterState} {st : LimiterStep}
    (hb : s.active ≤ s.maxConcurrent) (happ : applyStep s st = some s')
    (hg : ∀ n, st = .setMax n → s.active ≤ n) :
    s'.active ≤ s'.maxConcurrent := by
  cases st with
  | runDirect id =>
    simp only [applyStep] at happ
    split at happ
    · rename_i hguard
      have hlt : s.active < s.maxConcurrent := by
        have hg2 : s.active < s.maxConcurrent ∧ id ∉ usedIds s := by simpa using hguard
        exact hg2.1
      injection happ with happ'
      subst happ'
      simp
      omega
    · simp at happ
  | runEnqueue id timeoutMs now =>
    simp only [applyStep] at happ
    split at happ
    · injection happ with happ'
      subst happ'
      simpa using hb
    · simp at happ
  | promotedStart id =>
    simp only [applyStep] at happ
    split at happ
    · injection happ with happ'
      subst happ'
      simpa using hb
    · simp at happ
  | finish id =>
    simp only [applyStep] at happ
    split at happ
    · obtain ⟨q, a, p, hpr, hpn⟩ := processNext_parts
        { s with active := s.active - 1, running := s.running.erase id,
                 finishedIds := id :: s.finishedIds, finishedCount := s.finishedCount + 1 }
      rw [hpn] at happ
      injection happ with happ'
      subst happ'
      simp only at hpr
      have hle := processNextLoop_le s.queue (s.active - 1) s.maxConcurrent
      rw [hpr] at hle
      simp only at hle
      rw [max_eq_right (by omega : s.active - 1 ≤ s.maxConcurrent)] at hle
      simpa using hle
    · simp at happ
  | timeoutFire id =>
    cases hft : findTask s.queue id with
    | none => simp [applyStep, hft] at happ
    | some t =>
      simp only [applyStep, hft] at happ
      injection happ with happ'
      subst happ'
      simpa using hb
  | setMax n =>
    have hgn := hg n rfl
    simp only [applyStep] at happ
    obtain ⟨q, a, p, hpr, hpn⟩ := processNext_parts { s with maxConcurrent := n }
    rw [hpn] at happ
    injection happ with happ'
    subst happ'
    simp only at hpr
    have hle := processNextLoop_le s.queue s.active n
    rw [hpr] at hle
    simp only at hle
    rw [max_eq_right hgn] at hle
    simpa using hle
  | clearQueue =>
    simp only [applyStep] at happ
    injection happ with happ'
    subst happ'
    simpa using hb

/-- Every limiter step preserves the uniqueness of run() identities. -/
theorem idsInv_step {s s' : LimiterState} {st : LimiterStep}
    (h : IdsInv s) (happ : applyStep s st = some s') : IdsInv s' := by
  cases st with
  | runDirect id =>
    simp only [applyStep] at happ
    split at happ
    · rename_i hguard
      have hid : (usedIds s).count id = 0 := List.count_eq_zero.mpr (by
        have hg2 : s.active < s.maxConcurrent ∧ id ∉ usedIds s := by simpa using hguard
        exact hg2.2)
      injection happ with happ'
      subst happ'
      intro x
      have hx := h x
      simp only [usedIds, List.count_append] at hx hid ⊢
      by_cases hxe : x = id
      · subst hxe
        rw [List.count_cons_self]
        omega
      · rw [List.count_cons_of_ne hxe]
        omega
    · simp at happ
  | runEnqueue id timeoutMs now =>
    simp only [applyStep] at happ
    split at happ
    · rename_i hguard
      have hid : (usedIds s).count id = 0 := List.count_eq_zero.mpr (by
        have hg2 : ¬ s.active < s.maxConcurrent ∧ id ∉ usedIds s := by simpa using hguard
        exact hg2.2)
      injection happ with happ'
      subst happ'
      intro x
      have hx := h x
      simp only [usedIds, List.count_append, List.map_append, List.map_cons, List.map_nil]
        at hx hid ⊢
      by_cases hxe : x = id
      · subst hxe
        rw [List.count_cons_self]
        simp only [List.count_nil]
        omega
      · rw [List.count_cons_of_ne hxe]
        simp only [List.count_nil]
        omega
    · simp at happ
  | promotedStart id =>
    simp only [applyStep] at happ
    split at happ
    · rename_i hguard
      have hmem : id ∈ s.promoted := by simpa using hguard
      have hpos : 0 < s.promoted.count id := List.count_pos_iff.mpr hmem
      injection happ with happ'
      subst happ'
      intro x
      have hx := h x
      simp only [usedIds, List.count_append] at hx ⊢
      by_cases hxe : x = id
      · subst hxe
        rw [List.count_cons_self, List.count_erase_self]
        omega
      · rw [List.count_cons_of_ne hxe, List.count_erase_of_ne hxe]
        omega
    · simp at happ
  | finish id =>
    simp only [applyStep] at happ
    split at happ
    · rename_i hguard
      have hmem : id ∈ s.running := by simpa using hguard
      have hpos : 0 < s.running.count id := List.count_pos_iff.mpr hmem
      obtain ⟨q, a, p, hpr, hpn⟩ := processNext_parts
        { s with active := s.active - 1, running := s.running.erase id,
                 finishedIds := id :: s.finishedIds, finishedCount := s.finishedCount + 1 }
      rw [hpn] at happ
      injection happ with happ'
      subst happ'
      simp only at hpr
      have hq := (processNextLoop_spec s.queue (s.active - 1) s.maxConcurrent).2
      rw [hpr] at hq
      simp only at hq
      intro x
      have hx := h x
      have hqc : ∀ y : Nat, (s.queue.map QueuedTask.id).count y
          = (p.map QueuedTask.id).count y + (q.map QueuedTask.id).count y := by
        intro y
        rw [hq, List.map_append, List.count_append]
      simp only [usedIds, List.count_append, hqc x] at hx
      simp only [usedIds, List.count_append]
      by_cases hxe : x = id
      · subst hxe
        rw [List.count_cons_self, List.count_erase_self]
        omega
      · rw [List.count_cons_of_ne hxe, List.count_erase_of_ne hxe]
        omega
    · simp at happ
  | timeoutFire id =>
    cases hft : findTask s.queue id with
    | none => simp [applyStep, hft] at happ
    | some t =>
      simp only [applyStep, hft] at happ
      injection happ with happ'
      subst happ'
      obtain ⟨hts, htm⟩ := findTask_some hft
      have hidq : id ∈ s.queue.map QueuedTask.id := by
        rw [← hts]
        exact List.mem_map_of_mem _ htm
      have hc1 := removeTask_count_self hidq
      intro x
      have hx := h x
      simp only [usedIds, List.count_append, List.map_cons] at hx ⊢
      by_cases hxe : x = id
      · subst hxe
        rw [List.count_cons_self]
        omega
      · rw [List.count_cons_of_ne hxe, removeTask_count_ne _ _ _ hxe]
        omega
  | setMax n =>
    simp only [applyStep] at happ
    obtain ⟨q, a, p, hpr, hpn⟩ := processNext_parts { s with maxConcurrent := n }
    rw [hpn] at happ
    injection happ with happ'
    subst happ'
    simp only at hpr
    have hq := (processNextLoop_spec s.queue s.active n).2
    rw [hpr] at hq
    simp only at hq
    intro x
    have hx := h x
    have hqc : (s.queue.map QueuedTask.id).count x
        = (p.map QueuedTask.id).count x + (q.map QueuedTask.id).count x := by
      rw [hq, List.map_append, List.count_append]
    simp only [usedIds, List.count_append, hqc] at hx
    simp only [usedIds, List.count_append]
    omega
  | clearQueue =>
    simp only [applyStep] at happ
    injection happ with happ'
    subst happ'
    intro x
    have hx := h x
    simp only [usedIds, List.count_append] at hx ⊢
    simp only [List.map_nil, List.count_nil, List.count_append]
    omega


/-- A timed-out id is among the used ids. -/
theorem mem_usedIds_of_timedOut {id : Nat} {s : LimiterState}
    (h : id ∈ s.timedOut.map Prod.fst) : id ∈ usedIds s := by
  simp only [usedIds, List.mem_append]
  tauto

/-- Every limiter step preserves the rejected-stays-rejected predicate. -/
theorem timedOutStays_step {id : Nat} {s s' : LimiterState} {st : LimiterStep}
    (h : TimedOutStays id s) (happ : applyStep s st = some s') : TimedOutStays id s' := by
  obtain ⟨hto, hq, hp, hr, hf⟩ := h
  cases st with
  | runDirect id' =>
    simp only [applyStep] at happ
    split at happ
    · rename_i hguard
      have hg2 : s.active < s.maxConcurrent ∧ id' ∉ usedIds s := by simpa using hguard
      have hne : id' ≠ id := fun he => hg2.2 (he ▸ mem_usedIds_of_timedOut hto)
      injection happ with happ'
      subst happ'
      refine ⟨hto, hq, hp, ?_, hf⟩
      simp only [List.mem_cons]
      rintro (he | hm)
      · exact hne he.symm
      · exact hr hm
    · simp at happ
  | runEnqueue id' timeoutMs now =>
    simp only [applyStep] at happ
    split at happ
    · rename_i hguard
      have hg2 : ¬ s.active < s.maxConcurrent ∧ id' ∉ usedIds s := by simpa using hguard
      have hne : id' ≠ id := fun he => hg2.2 (he ▸ mem_usedIds_of_timedOut hto)
      injection happ with happ'
      subst happ'
      refine ⟨hto, ?_, hp, hr, hf⟩
      simp only [List.map_append, List.map_cons, List.map_nil, List.mem_append,
        List.mem_cons, List.not_mem_nil, or_false]
      rintro (hm | he)
      · exact hq hm
      · exact hne he.symm
    · simp at happ
  | promotedStart id' =>
    simp only [applyStep] at happ
    split at happ
    · rename_i hguard
      have hmem : id' ∈ s.promoted := by simpa using hguard
      have hne : id' ≠ id := fun he => hp (he ▸ hmem)
      injection happ with happ'
      subst happ'
      refine ⟨hto, hq, fun hm => hp (List.mem_of_mem_erase hm), ?_, hf⟩
      simp only [List.mem_cons]
      rintro (he | hm)
      · exact hne he.symm
      · exact hr hm
    · simp at happ
  | finish id' =>
    simp only [applyStep] at happ
    split at happ
    · rename_i hguard
      have hmem : id' ∈ s.running := by simpa using hguard
      have hne : id' ≠ id := fun he => hr (he ▸ hmem)
      obtain ⟨q, a, p, hpr, hpn⟩ := processNext_parts
        { s with active := s.active - 1, running := s.running.erase id',
                 finishedIds := id' :: s.finishedIds, finishedCount := s.finishedCount + 1 }
      rw [hpn] at happ
      injection happ with happ'
      subst happ'
      simp only at hpr
      have hqs := (processNextLoop_spec s.queue (s.active - 1) s.maxConcurrent).2
      rw [hpr] at hqs
      simp only at hqs
      have hqm : id ∉ (p.map QueuedTask.id) ∧ id ∉ (q.map QueuedTask.id) := by
        rw [hqs, List.map_append] at hq
        exact ⟨fun hm => hq (List.mem_append_left _ hm),
               fun hm => hq (List.mem_append_right _ hm)⟩
      refine ⟨hto, hqm.2, ?_, fun hm => hr (List.mem_of_mem_erase hm), ?_⟩
      · simp only [List.mem_append]
        rintro (hm | hm)
        · exact hp hm
        · exact hqm.1 hm
      · simp only [List.mem_cons]
        rintro (he | hm)
        · exact hne he.symm
        · exact hf hm
    · simp at happ
  | timeoutFire id' =>
    cases hft : findTask s.queue id' with
    | none => simp [applyStep, hft] at happ
    | some t =>
      simp only [applyStep, hft] at happ
      injection happ with happ'
      subst happ'
      refine ⟨List.mem_cons_of_mem _ hto, ?_, hp, hr, hf⟩
      intro hm
      exact hq (((removeTask_sublist s.queue id').map QueuedTask.id).subset hm)
  | setMax n =>
    simp only [applyStep] at happ
    obtain ⟨q, a, p, hpr, hpn⟩ := processNext_parts { s with maxConcurrent := n }
    rw [hpn] at happ
    injection happ with happ'
    subst happ'
    simp only at hpr
    have hqs := (processNextLoop_spec s.queue s.active n).2
    rw [hpr] at hqs
    simp only at hqs
    have hqm : id ∉ (p.map QueuedTask.id) ∧ id ∉ (q.map QueuedTask.id) := by
      rw [hqs, List.map_append] at hq
      exact ⟨fun hm => hq (List.mem_append_left _ hm),
             fun hm => hq (List.mem_append_right _ hm)⟩
    refine ⟨hto, hqm.2, ?_, hr, hf⟩
    simp only [List.mem_append]
    rintro (hm | hm)
    · exact hp hm
    · exact hqm.1 hm
  | clearQueue =>
    simp only [applyStep] at happ
    injection happ with happ'
    subst happ'
    exact ⟨hto, by simp, hp, hr, hf⟩

/-- The rejected-stays-rejected predicate holds along every execution. -/
theorem timedOutStays_reaches {id : Nat} {s s' : LimiterState}
    (h : TimedOutStays id s) (hr : Reaches s s') : TimedOutStays id s' := by
  induction hr with
  | refl => exact h
  | step s₂ s₃ st hr₂ happ ih => exact timedOutStays_step ih happ

/-- Both invariants hold along every execution. -/
theorem reaches_invs {s s' : LimiterState} (hr : Reaches s s')
    (hA : ActiveCountInv s) (hI : IdsInv s) : ActiveCountInv s' ∧ IdsInv s' := by
  induction hr with
  | refl => exact ⟨hA, hI⟩
  | step s₂ s₃ st hr₂ happ ih => exact ⟨activeCountInv_step ih.1 happ, idsInv_step ih.2 happ⟩

/-- Both invariants hold at every reachable state. -/
theorem reachable_invs {m : Int} {s : LimiterState} (h : Reachable m s) :
    ActiveCountInv s ∧ IdsInv s :=
  reaches_invs h (by constructor <;> simp [initLimiter])
    (fun id => by simp [initLimiter, usedIds])

/-- Guarded executions are executions. -/
theorem reachesG_to_reaches {s s' : LimiterState} (h : ReachesG s s') : Reaches s s' := by
  induction h with
  | refl => exact Reaches.refl s
  | step s₂ s₃ st hr happ hg ih => exact Reaches.step _ _ _ st ih happ

/-- The capacity bound holds along every guarded execution. -/
theorem reachesG_bound {s s' : LimiterState} (h : ReachesG s s')
    (hb : s.active ≤ s.maxConcurrent) : s'.active ≤ s'.maxConcurrent := by
  induction h with
  | refl => exact hb
  | step s₂ s₃ st hr happ hg ih => exact active_le_max_step ih happ hg

/-- C2 counterexample: `setMaxConcurrent` can lower the capacity below
the current active count without preempting running jobs, so a reachable
state violates `active ≤ maxConcurrent`: start one job at capacity 1,
then set the capacity to 0. -/
theorem ConcurrencyLimiter_bound_counterexample :
    ∃ s : LimiterState, Reachable 1 s ∧ ¬ (s.active ≤ s.maxConcurrent) := by
  refine ⟨{ active := 1, maxConcurrent := 0, queue := [], promoted := [], running := [0],
            finishedIds := [], timedOut := [], cleared := [], startedCount := 1,
            finishedCount := 0 }, ?_, by decide⟩
  have h1 : applyStep (initLimiter 1) (LimiterStep.runDirect 0)
      = some { active := 1, maxConcurrent := 1, queue := [], promoted := [], running := [0],
               finishedIds := [], timedOut := [], cleared := [], startedCount := 1,
               finishedCount := 0 } := by decide
  have h2 : applyStep
      { active := 1, maxConcurrent := 1, queue := [], promoted := [], running := [0],
        finishedIds := [], timedOut := [], cleared := [], startedCount := 1,
        finishedCount := 0 } (LimiterStep.setMax 0)
      = some { active := 1, maxConcurrent := 0, queue := [], promoted := [], running := [0],
               finishedIds := [], timedOut := [], cleared := [], startedCount := 1,
               finishedCount := 0 } := by decide
  exact Reaches.step _ _ _ _ (Reaches.step _ _ _ _ (Reaches.refl _) h1) h2

/-- C2 amended: in every execution of a limiter built with a nonnegative
capacity in which `setMaxConcurrent` is never used to lower the capacity
below the current active count, the active counter equals (job bodies
started − job bodies finished) plus the number of promoted tasks whose
bodies are still pending their start microtask; it is never negative and
never exceeds the capacity. -/
theorem ConcurrencyLimiter_active_accounting (m : Int) (s : LimiterState)
    (hm : 0 ≤ m) (h : ReachableG m s) :
    s.active = ((s.startedCount : Int) - (s.finishedCount : Int)) + (s.promoted.length : Int)
    ∧ 0 ≤ s.active ∧ s.active ≤ s.maxConcurrent := by
  obtain ⟨hA, hI⟩ := reachable_invs (reachesG_to_reaches h)
  obtain ⟨h1, h2⟩ := hA
  have hb := reachesG_bound h (by simpa [initLimiter] using hm)
  exact ⟨by omega, by omega, hb⟩

/-- C2 witness: the amended theorem after run-direct, run-enqueue and a
finish that promotes the queued task. -/
theorem ConcurrencyLimiter_active_accounting_witness :
    (0 : Int) ≤ 1
    ∧ ((⟨1, 1, [], [1], [], [0], [], [], 1, 1⟩ : LimiterState).active
        = (((⟨1, 1, [], [1], [], [0], [], [], 1, 1⟩ : LimiterState).startedCount : Int)
            - ((⟨1, 1, [], [1], [], [0], [], [], 1, 1⟩ : LimiterState).finishedCount : Int))
          + ((⟨1, 1, [], [1], [], [0], [], [], 1, 1⟩ : LimiterState).promoted.length : Int)
       ∧ 0 ≤ (⟨1, 1, [], [1], [], [0], [], [], 1, 1⟩ : LimiterState).active
       ∧ (⟨1, 1, [], [1], [], [0], [], [], 1, 1⟩ : LimiterState).active
          ≤ (⟨1, 1, [], [1], [], [0], [], [], 1, 1⟩ : LimiterState).maxConcurrent) := by
  refine ⟨by decide, ConcurrencyLimiter_active_accounting 1 _ (by decide) ?_⟩
  have h1 : applyStep (initLimiter 1) (LimiterStep.runDirect 0)
      = some ⟨1, 1, [], [], [0], [], [], [], 1, 0⟩ := by decide
  have h2 : applyStep (⟨1, 1, [], [], [0], [], [], [], 1, 0⟩ : LimiterState)
      (LimiterStep.runEnqueue 1 100 5)
      = some ⟨1, 1, [⟨1, 100, 5⟩], [], [0], [], [], [], 1, 0⟩ := by decide
  have h3 : applyStep (⟨1, 1, [⟨1, 100, 5⟩], [], [0], [], [], [], 1, 0⟩ : LimiterState)
      (LimiterStep.finish 0)
      = some ⟨1, 1, [], [1], [], [0], [], [], 1, 1⟩ := by decide
  exact ReachesG.step _ _ _ (LimiterStep.finish 0)
    (ReachesG.step _ _ _ (LimiterStep.runEnqueue 1 100 5)
      (ReachesG.step _ _ _ (LimiterStep.runDirect 0) (ReachesG.refl _) h1
        (fun n hn => nomatch hn))
      h2 (fun n hn => nomatch hn))
    h3 (fun n hn => nomatch hn)

/-- C3: when a queued task's timeout fires, the step succeeds and in the
resulting state the task is recorded as rejected with its configured
timeout value, it is spliced out of the queue (hence gone from
`getQueueInfo`'s output), and in every state reachable afterwards its id
never appears among the promoted, running or finished job bodies: its
execute function is never invoked after the rejection. -/
theorem ConcurrencyLimiter_timeout_exclusive (m : Int) (s : LimiterState) (t : QueuedTask)
    (hreach : Reachable m s) (ht : t ∈ s.queue) :
    ∃ s', applyStep s (LimiterStep.timeoutFire t.id) = some s'
      ∧ (t.id, t.timeoutMs) ∈ s'.timedOut
      ∧ s'.queue = removeTask s.queue t.id
      ∧ t.id ∉ s'.queue.map QueuedTask.id
      ∧ (∀ now, getQueueInfo s' now
          = (removeTask s.queue t.id).map (fun tk => (tk.timestamp, (now : Int) - tk.timestamp)))
      ∧ ∀ s'', Reaches s' s'' →
          t.id ∉ s''.running ∧ t.id ∉ s''.promoted ∧ t.id ∉ s''.finishedIds := by
  have hI := (reachable_invs hreach).2
  have hidq : t.id ∈ s.queue.map QueuedTask.id := List.mem_map_of_mem _ ht
  have hcpos : 0 < (s.queue.map QueuedTask.id).count t.id := List.count_pos_iff.mpr hidq
  have hx := hI t.id
  simp only [usedIds, List.count_append] at hx
  have hcq : (s.queue.map QueuedTask.id).count t.id ≤ 1 := by omega
  have hft : findTask s.queue t.id = some t := findTask_eq_of_mem ht hcq
  have hnp : t.id ∉ s.promoted := by
    intro hm
    have := List.count_pos_iff.mpr hm
    omega
  have hnr : t.id ∉ s.running := by
    intro hm
    have := List.count_pos_iff.mpr hm
    omega
  have hnf : t.id ∉ s.finishedIds := by
    intro hm
    have := List.count_pos_iff.mpr hm
    omega
  have key : applyStep s (LimiterStep.timeoutFire t.id)
      = some { s with queue := removeTask s.queue t.id,
                      timedOut := (t.id, t.timeoutMs) :: s.timedOut } := by
    simp [applyStep, hft]
  refine ⟨_, key, by simp, rfl, not_mem_removeTask hcq, fun now => rfl, ?_⟩
  · intro s'' hr
    have hstays : TimedOutStays t.id
        { s with queue := removeTask s.queue t.id,
                 timedOut := (t.id, t.timeoutMs) :: s.timedOut } :=
      ⟨by simp, not_mem_removeTask hcq, hnp, hnr, hnf⟩
    have hfinal := timedOutStays_reaches hstays hr
    exact ⟨hfinal.2.2.2.1, hfinal.2.2.1, hfinal.2.2.2.2⟩

/-- C3 witness: the exclusivity theorem at a concrete state with one
running job and one queued task with timeout 50. -/
theorem ConcurrencyLimiter_timeout_exclusive_witness :
    ∃ s', applyStep (⟨1, 1, [⟨1, 50, 10⟩], [], [0], [], [], [], 1, 0⟩ : LimiterState)
        (LimiterStep.timeoutFire 1) = some s'
      ∧ ((1 : Nat), (50 : Nat)) ∈ s'.timedOut
      ∧ s'.queue = removeTask [⟨1, 50, 10⟩] 1
      ∧ (1 : Nat) ∉ s'.queue.map QueuedTask.id
      ∧ (∀ now, getQueueInfo s' now
          = (removeTask [⟨1, 50, 10⟩] 1).map (fun tk => (tk.timestamp, (now : Int) - tk.timestamp)))
      ∧ ∀ s'', Reaches s' s'' →
          (1 : Nat) ∉ s''.running ∧ (1 : Nat) ∉ s''.promoted ∧ (1 : Nat) ∉ s''.finishedIds := by
  have h1 : applyStep (initLimiter 1) (LimiterStep.runDirect 0)
      = some ⟨1, 1, [], [], [0], [], [], [], 1, 0⟩ := by decide
  have h2 : applyStep (⟨1, 1, [], [], [0], [], [], [], 1, 0⟩ : LimiterState)
      (LimiterStep.runEnqueue 1 50 10)
      = some ⟨1, 1, [⟨1, 50, 10⟩], [], [0], [], [], [], 1, 0⟩ := by decide
  have hreach : Reachable 1 (⟨1, 1, [⟨1, 50, 10⟩], [], [0], [], [], [], 1, 0⟩ : LimiterState) :=
    Reaches.step _ _ _ (LimiterStep.runEnqueue 1 50 10)
      (Reaches.step _ _ _ (LimiterStep.runDirect 0) (Reaches.refl _) h1) h2
  exact ConcurrencyLimiter_timeout_exclusive 1 _ ⟨1, 50, 10⟩ hreach (by decide)

end CcFastapi
